import Mathlib

/-!
# Verification of the `const_for` crate's loop semantics

Shallow embedding of `src/lib.rs`.  The crate's `const_for!` macro lowers

    const_for!(var in (range).adapter1(args).adapter2(args) => body)

to

    let mut __start = range.start;
    let mut __end   = range.end;
    '__outer: while __start < __end {
        let var = next!(__start, __end, { break '__outer; }, adapters...);
        { body }
    }

`next!` first computes a `rev : Bool` flag (the `is_rev!`/`rev!` macros toggle
it once for every adapter whose identifier is literally `rev`), then folds the
adapter list with `adapters!`/`adapter!` around a raw consumption block

    let val = if rev { __end -= 1; __end }
              else   { let val = __start; __start += 1; val };
    if __start == __end { __exhausted = true; }
    val

with the first adapter innermost.  The `rev()` arm of `adapter!` returns its
inner expression unchanged; the `step_by(n)` arm evaluates the inner expression
once for the value and then `n - 1` further times, discarding the results.
(The `__exhausted` flag is read only by the `filter` arm of `adapter!`; the
claims under verification involve only the `rev` and `step_by` adapters, so the
flag is dead code in every configuration modelled here and is omitted.)

We model the cursor pair `(__start, __end)` as `Int × Int` (the macro works
over any integer type; claims C1-C6 and C8-C10 concern unbounded integer
semantics, and for C7 a separate wrapping 8-bit model is given).  A `next!`
expansion becomes a function `Int × Int → Int × (Int × Int)` returning the
value bound for the iteration together with the updated cursors.  The while
loop is embedded with explicit fuel; `(e - s).toNat` iterations always suffice
because every `next!` call consumes at least one raw cursor step (proved below
via `next_eq` and `consCount_pos`, and the closed-form theorem
`runFuel_closed` shows the result is the same for every fuel of at least
`(e - s).toNat`, so the fuelled run coincides with the unbounded Rust loop).

The crate also exports a second macro `const_for2!`; its `step_by` arm (a
plain `loop` advancing `__ite += __step` and breaking once `__ite >= __end`)
is embedded separately as `cf2_step_by` for claim C8.
-/

namespace ConstFor

/-- The two loop adapters exercised by the claims, mirroring the `rev()` and
`step_by(n)` arms of the crate's `adapter!` macro.  The step amount is the
`count` the `step_by` arm starts from. -/
inductive Adapter where
  | rev : Adapter
  | step : Nat → Adapter

/-- Type of an embedded `next!` expansion: from the cursors `(__start, __end)`
produce the value bound for this iteration and the updated cursors. -/
abbrev StFn : Type := Int × Int → Int × (Int × Int)

/-- The raw consumption block inside `next!`: if `rev` holds, decrement
`__end` and yield it; otherwise yield `__start` and increment it. -/
def rawNext (r : Bool) : StFn := fun st =>
  if r then (st.2 - 1, (st.1, st.2 - 1)) else (st.1, (st.1 + 1, st.2))

/-- The `rev!` macro: toggle the flag when the adapter identifier is literally
`rev`, leave it unchanged for any other identifier. -/
def revToggle (b : Bool) : Adapter → Bool
  | Adapter.rev => !b
  | Adapter.step _ => b

/-- The `is_rev!` macro: fold `rev!` over the whole adapter list, starting
from `false`. -/
def is_rev (l : List Adapter) : Bool := l.foldl revToggle false

/-- The `while count > 1` loop of the `step_by` arm of `adapter!`: evaluate
`inner` a further `k` times, discarding the produced values and keeping only
the cursor updates. -/
def discard (inner : StFn) : Nat → Int × Int → Int × Int
  | 0, st => st
  | k + 1, st => discard inner k (inner st).2

/-- The `adapter!` macro, `rev()` and `step_by(n)` arms.  `rev()` returns the
inner expression unchanged.  `step_by(n)` evaluates the inner expression once
for the value, then `n - 1` more times discarding the results (for `n = 0` the
`while count > 1` loop body never runs, and `n - 1 = 0` in `Nat` matches
that). -/
def adapter (inner : StFn) : Adapter → StFn
  | Adapter.rev => inner
  | Adapter.step n => fun st => ((inner st).1, discard inner (n - 1) (inner st).2)

/-- The `adapters!` macro: fold the adapter list around the inner expression,
first adapter innermost. -/
def adapters (inner : StFn) : List Adapter → StFn
  | [] => inner
  | a :: rest => adapters (adapter inner a) rest

/-- The `next!` macro.  With no adapters it is the bare ascending consumption
`let val = __start; __start += 1; val`.  With adapters it computes the `rev`
flag over the whole list and folds `adapters!` around the raw block. -/
def next : List Adapter → StFn
  | [] => fun st => (st.1, (st.1 + 1, st.2))
  | a :: rest => adapters (rawNext (is_rev (a :: rest))) (a :: rest)

/-- The `'__outer: while __start < __end` loop of `const_for!`, collecting the
values bound to the loop variable.  Fuel-indexed; `const_for` instantiates the
fuel with `(e - s).toNat`, which `runFuel_closed` proves sufficient. -/
def runFuel (f : StFn) : Nat → Int × Int → List Int
  | 0, _ => []
  | fuel + 1, st =>
    if st.1 < st.2 then (f st).1 :: runFuel f fuel (f st).2 else []

/-- The same while loop, returning the final cursor state instead of the
produced values. -/
def runSt (f : StFn) : Nat → Int × Int → Int × Int
  | 0, st => st
  | fuel + 1, st => if st.1 < st.2 then runSt f fuel (f st).2 else st

/-- The `const_for!` macro applied to the half-open range `s..e` with the
given adapter chain: the sequence of values bound to the loop variable. -/
def const_for (l : List Adapter) (s e : Int) : List Int :=
  runFuel (next l) (e - s).toNat (s, e)

/-- Final cursor state `(__start, __end)` after `const_for!` terminates. -/
def const_for_final (l : List Adapter) (s e : Int) : Int × Int :=
  runSt (next l) (e - s).toNat (s, e)

/-- The `const_for!` while loop run against a user body.  The body receives
its accumulated state and the value bound to the loop variable, and returns
the new state together with a flag that is `true` when the body executes
`break`.  In the expansion the body sits directly inside the single
`'__outer: while` loop (the `step_by` skip-ahead `while count > 1` loop lives
inside the `next!` expression and has finished before the body runs), so a
`break` leaves the whole construct at once and a body that simply finishes
(`continue`) re-enters the loop at the next produced value with the cursor
bookkeeping intact. -/
def runBody {σ : Type} (f : StFn) (body : σ → Int → σ × Bool) :
    Nat → Int × Int → σ → σ
  | 0, _, acc => acc
  | fuel + 1, st, acc =>
    if st.1 < st.2 then
      let r := body acc (f st).1
      if r.2 then r.1 else runBody f body fuel (f st).2 r.1
    else acc

/-- `const_for!` with an explicit body, as `runBody`. -/
def const_for_body {σ : Type} (l : List Adapter) (s e : Int)
    (body : σ → Int → σ × Bool) (acc0 : σ) : σ :=
  runBody (next l) body (e - s).toNat (s, e) acc0

/-- Value produced by one raw consumption starting from `st`. -/
def cursorVal (r : Bool) (st : Int × Int) : Int := if r then st.2 - 1 else st.1

/-- Cursor state after `c` raw consumptions starting from `st`. -/
def cursorMove (r : Bool) (c : Nat) (st : Int × Int) : Int × Int :=
  if r then (st.1, st.2 - c) else (st.1 + c, st.2)

/-- Total number of raw consumptions one `next!` call performs for the given
adapter chain: each `step_by(n)` arm multiplies it by `max n 1` (one
consumption for the value plus `n - 1` discarded ones), `rev()` leaves it
unchanged. -/
def consCount : List Adapter → Nat
  | [] => 1
  | Adapter.rev :: rest => consCount rest
  | Adapter.step n :: rest => max n 1 * consCount rest

/-- Spec-side reference: native ascending iteration over the half-open range
`[s, e)` ("produce each integer in [start, end) in ascending order, step 1"). -/
def nativeAsc (s e : Int) : List Int :=
  (List.range (e - s).toNat).map fun k : Nat => s + (k : Int)

/-- Number of values a stride-`n` traversal of `[s, e)` produces:
`⌈(e - s) / n⌉` for `e ≥ s` (and `0` for an empty or inverted range). -/
def stepCount (s e : Int) (n : Nat) : Nat := ((e - s).toNat + (n - 1)) / n

/-- Spec-side reference: native strided ascending iteration, "produce start,
start+n, start+2n, … while the value is < end". -/
def nativeStride (s e : Int) (n : Nat) : List Int :=
  (List.range (stepCount s e n)).map fun k : Nat => s + (n : Int) * (k : Int)

/-- Spec-side reference for `reverse` then `step(n)`: "produce end-1,
end-1-n, end-1-2n, … down to ≥ start". -/
def descStride (s e : Int) (n : Nat) : List Int :=
  (List.range (stepCount s e n)).map fun k : Nat => e - 1 - (n : Int) * (k : Int)

/-- Wrapping 8-bit decrement: `__end -= 1` on a `u8` cursor under two's
complement wrapping (release-mode) semantics.  Used for claim C7's
fixed-width counterexample; in debug or const evaluation the same input
instead aborts with a subtract-with-overflow panic. -/
def u8dec (x : Nat) : Nat := (x + 255) % 256

/-- `next!` for the `rev` + `step_by(n)` configuration over wrapping `u8`
cursors: one wrapping decrement for the value, then `n - 1` discarded
wrapping decrements (same structure as `next [Adapter.rev, Adapter.step n]`,
with `u8dec` in place of the integer decrement). -/
def next8 (n : Nat) (st : Nat × Nat) : Nat × (Nat × Nat) :=
  (u8dec st.2, (st.1, u8dec^[n - 1] (u8dec st.2)))

/-- The `while __start < __end` loop over wrapping `u8` cursors (first `fuel`
iterations). -/
def run8 (n : Nat) : Nat → Nat × Nat → List Nat
  | 0, _ => []
  | fuel + 1, st =>
    if st.1 < st.2 then (next8 n st).1 :: run8 n fuel (next8 n st).2 else []

/-- The `step_by` arm of the crate's `const_for2!` macro:

    let mut __ite = range.start; let __end = range.end;
    let mut __is_first = true;   let __step = step;
    loop {
        if !__is_first { __ite += __step }
        __is_first = false;
        let var = __ite;
        if __ite >= __end { break }
        body
    }

Fuel-indexed: `some values` when the loop breaks within `fuel` iterations
(`values` are the cursor values for which the body ran), `none` when the loop
is still running after `fuel` iterations. -/
def cf2_step_by (step e : Int) : Nat → Int → Bool → Option (List Int)
  | 0, _, _ => none
  | fuel + 1, i, first =>
    let cur := if first then i else i + step
    if e ≤ cur then some []
    else
      match cf2_step_by step e fuel cur false with
      | some l => some (cur :: l)
      | none => none

/-- `const_for2!(var in (s..e).step_by(step) => body)`, fuel-indexed. -/
def cf2_run (step s e : Int) (fuel : Nat) : Option (List Int) :=
  cf2_step_by step e fuel s true

/-! ## The shape of a `next!` expansion

Every `next!` expansion built from `rev`/`step_by` adapters yields the value
of its first raw consumption and advances exactly one cursor by the total
consumption count `consCount`. -/

theorem rawNext_eq (r : Bool) (st : Int × Int) :
    rawNext r st = (cursorVal r st, cursorMove r 1 st) := by
  cases r <;> simp [rawNext, cursorVal, cursorMove]

theorem cursorMove_zero (r : Bool) (st : Int × Int) : cursorMove r 0 st = st := by
  cases r <;> simp [cursorMove]

theorem cursorMove_comp (r : Bool) (a b : Nat) (st : Int × Int) :
    cursorMove r a (cursorMove r b st) = cursorMove r (b + a) st := by
  cases r <;> simp [cursorMove, Prod.ext_iff, Nat.cast_add] <;> ring

theorem discard_shape {r : Bool} {inner : StFn} {k : Nat}
    (h : ∀ st, inner st = (cursorVal r st, cursorMove r k st)) :
    ∀ (j : Nat) (st : Int × Int), discard inner j st = cursorMove r (k * j) st := by
  intro j
  induction j with
  | zero => intro st; simp [discard, cursorMove_zero]
  | succ j ih =>
    intro st
    have hkj : k + k * j = k * (j + 1) := by ring
    rw [discard, h st, ih (cursorMove r k st), cursorMove_comp, hkj]

theorem adapters_shape (r : Bool) :
    ∀ (l : List Adapter) (inner : StFn) (k : Nat),
      (∀ st, inner st = (cursorVal r st, cursorMove r k st)) →
      ∀ st, adapters inner l st = (cursorVal r st, cursorMove r (k * consCount l) st) := by
  intro l
  induction l with
  | nil => intro inner k h st; simp only [adapters, consCount, Nat.mul_one]; exact h st
  | cons a rest ih =>
    intro inner k h st
    cases a with
    | rev =>
      simp only [adapters, adapter, consCount]
      exact ih inner k h st
    | step n =>
      have hstep : ∀ st, adapter inner (Adapter.step n) st =
          (cursorVal r st, cursorMove r (k * max n 1) st) := by
        intro st
        have harith : k + k * (n - 1) = k * max n 1 := by
          cases n with
          | zero => simp
          | succ m =>
            have hmax : max (m + 1) 1 = m + 1 := by omega
            rw [hmax]
            simp [Nat.succ_sub_one]
            ring
        have hd := discard_shape h (n - 1) (cursorMove r k st)
        simp only [adapter, h st]
        rw [hd, cursorMove_comp, harith]
      have := ih (adapter inner (Adapter.step n)) (k * max n 1) hstep st
      rw [adapters, this, consCount, Nat.mul_assoc]

theorem next_eq (l : List Adapter) (st : Int × Int) :
    next l st = (cursorVal (is_rev l) st, cursorMove (is_rev l) (consCount l) st) := by
  cases l with
  | nil =>
    simp [next, is_rev, consCount, cursorVal, cursorMove]
  | cons a rest =>
    have h := adapters_shape (is_rev (a :: rest)) (a :: rest)
      (rawNext (is_rev (a :: rest))) 1 (rawNext_eq _) st
    rw [next, h, Nat.one_mul]

theorem consCount_pos (l : List Adapter) : 1 ≤ consCount l := by
  induction l with
  | nil => exact le_refl 1
  | cons a rest ih =>
    cases a with
    | rev => exact ih
    | step n =>
      have h1 : 0 < max n 1 := by omega
      have h2 : 0 < max n 1 * consCount rest := Nat.mul_pos h1 (by omega)
      show 1 ≤ max n 1 * consCount rest
      omega

/-! ## Arithmetic of the stride count -/

theorem stepCount_of_le {s e : Int} (h : e ≤ s) (n : Nat) : stepCount s e n = 0 := by
  have h0 : (e - s).toNat = 0 := by omega
  unfold stepCount
  rw [h0]
  cases n with
  | zero => simp
  | succ m => exact Nat.div_eq_of_lt (by omega)

theorem stepCount_pos {s e : Int} {n : Nat} (hn : 1 ≤ n) (h : s < e) :
    1 ≤ stepCount s e n := by
  unfold stepCount
  rw [Nat.le_div_iff_mul_le (by omega)]
  omega

theorem stepCount_succ {s e : Int} {n : Nat} (hn : 1 ≤ n) (h : s < e) :
    stepCount s e n = stepCount (s + n) e n + 1 := by
  have hg2 : (e - (s + n)).toNat = (e - s).toNat - n := by omega
  unfold stepCount
  rw [hg2]
  have hg1 : 1 ≤ (e - s).toNat := by omega
  by_cases hgn : n < (e - s).toNat
  · have e1 : (e - s).toNat + (n - 1) = ((e - s).toNat - n + (n - 1)) + n := by omega
    rw [e1, Nat.add_div_right _ (by omega)]
  · have hgn0 : (e - s).toNat - n = 0 := by omega
    rw [hgn0]
    have e1 : (e - s).toNat + (n - 1) = ((e - s).toNat - 1) + n := by omega
    rw [e1, Nat.add_div_right _ (by omega)]
    rw [Nat.div_eq_of_lt (by omega), Nat.div_eq_of_lt (by omega)]

theorem stepCount_shift (s e : Int) (n : Nat) :
    stepCount (s + n) e n = stepCount s (e - n) n := by
  have h : e - (s + (n : Int)) = (e - n) - s := by ring
  unfold stepCount
  rw [h]

theorem lt_stepCount_iff {n : Nat} (hn : 1 ≤ n) (s e : Int) (k : Nat) :
    k < stepCount s e n ↔ n * k < (e - s).toNat := by
  unfold stepCount
  rw [Nat.lt_iff_add_one_le, Nat.le_div_iff_mul_le (by omega)]
  have h1 : (k + 1) * n = n * k + n := by ring
  rw [h1]
  obtain ⟨t, ht⟩ : ∃ t, n * k = t := ⟨n * k, rfl⟩
  rw [ht]
  omega

theorem stepCount_mul_le (n : Nat) (s e : Int) :
    n * stepCount s e n ≤ (e - s).toNat + (n - 1) := by
  unfold stepCount
  exact Nat.mul_div_le _ n

theorem stepCount_mul_ge {n : Nat} (hn : 1 ≤ n) (s e : Int) :
    (e - s).toNat ≤ n * stepCount s e n := by
  unfold stepCount
  have h1 := Nat.div_add_mod ((e - s).toNat + (n - 1)) n
  have h2 : ((e - s).toNat + (n - 1)) % n < n := Nat.mod_lt _ (by omega)
  omega

/-! ## Recurrences for the reference sequences -/

theorem nativeStride_cons {s e : Int} {n : Nat} (hn : 1 ≤ n) (h : s < e) :
    nativeStride s e n = s :: nativeStride (s + n) e n := by
  unfold nativeStride
  rw [stepCount_succ hn h, List.range_succ_eq_map, List.map_cons, List.map_map]
  have h0 : s + (n : Int) * ((0 : Nat) : Int) = s := by push_cast; ring
  have h1 : ((fun k : Nat => s + (n : Int) * k) ∘ Nat.succ) =
      fun k : Nat => (s + n) + (n : Int) * k := by
    funext k
    simp only [Function.comp_apply, Nat.succ_eq_add_one]
    push_cast
    ring
  rw [h0, h1]

theorem descStride_cons {s e : Int} {n : Nat} (hn : 1 ≤ n) (h : s < e) :
    descStride s e n = (e - 1) :: descStride s (e - n) n := by
  unfold descStride
  rw [show stepCount s (e - n) n = stepCount (s + n) e n from (stepCount_shift s e n).symm,
    stepCount_succ hn h, List.range_succ_eq_map, List.map_cons, List.map_map]
  have h0 : e - 1 - (n : Int) * ((0 : Nat) : Int) = e - 1 := by push_cast; ring
  have h1 : ((fun k : Nat => e - 1 - (n : Int) * k) ∘ Nat.succ) =
      fun k : Nat => (e - n) - 1 - (n : Int) * k := by
    funext k
    simp only [Function.comp_apply, Nat.succ_eq_add_one]
    push_cast
    ring
  rw [h0, h1]

/-! ## Closed form of the loop -/

theorem runFuel_closed (l : List Adapter) :
    ∀ (fuel : Nat) (s e : Int), (e - s).toNat ≤ fuel →
      runFuel (next l) fuel (s, e) =
        if is_rev l then descStride s e (consCount l)
        else nativeStride s e (consCount l) := by
  intro fuel
  induction fuel with
  | zero =>
    intro s e h
    have hse : e ≤ s := by omega
    rw [runFuel]
    cases is_rev l <;>
      simp [descStride, nativeStride, stepCount_of_le hse]
  | succ fuel ih =>
    intro s e h
    by_cases hse : s < e
    · have hc : 1 ≤ consCount l := consCount_pos l
      rw [runFuel, if_pos hse, next_eq]
      cases hr : is_rev l
      · simp only [cursorVal, cursorMove, Bool.false_eq_true, if_false]
        rw [ih (s + consCount l) e (by omega), hr]
        simp only [Bool.false_eq_true, if_false]
        exact (nativeStride_cons hc hse).symm
      · simp only [cursorVal, cursorMove, if_true]
        rw [ih s (e - consCount l) (by omega), hr]
        simp only [if_true]
        exact (descStride_cons hc hse).symm
    · have hse2 : e ≤ s := by omega
      rw [runFuel, if_neg hse]
      cases is_rev l <;>
        simp [descStride, nativeStride, stepCount_of_le hse2]

theorem const_for_closed (l : List Adapter) (s e : Int) :
    const_for l s e =
      if is_rev l then descStride s e (consCount l)
      else nativeStride s e (consCount l) :=
  runFuel_closed l (e - s).toNat s e (le_refl _)

theorem runSt_closed (l : List Adapter) :
    ∀ (fuel : Nat) (s e : Int), (e - s).toNat ≤ fuel →
      runSt (next l) fuel (s, e) =
        if is_rev l then (s, e - (consCount l : Int) * stepCount s e (consCount l))
        else (s + (consCount l : Int) * stepCount s e (consCount l), e) := by
  intro fuel
  induction fuel with
  | zero =>
    intro s e h
    have hse : e ≤ s := by omega
    rw [runSt]
    cases is_rev l <;> simp [stepCount_of_le hse]
  | succ fuel ih =>
    intro s e h
    by_cases hse : s < e
    · have hc : 1 ≤ consCount l := consCount_pos l
      rw [runSt, if_pos hse, next_eq]
      cases hr : is_rev l
      · simp only [cursorVal, cursorMove, Bool.false_eq_true, if_false]
        rw [ih (s + consCount l) e (by omega), hr]
        simp only [Bool.false_eq_true, if_false]
        rw [stepCount_succ hc hse]
        simp only [Prod.ext_iff]
        constructor
        · push_cast
          ring
        · trivial
      · simp only [cursorVal, cursorMove, if_true]
        rw [ih s (e - consCount l) (by omega), hr]
        simp only [if_true]
        rw [← stepCount_shift, stepCount_succ hc hse]
        simp only [Prod.ext_iff]
        constructor
        · trivial
        · push_cast
          ring
    · have hse2 : e ≤ s := by omega
      rw [runSt, if_neg hse]
      cases is_rev l <;> simp [stepCount_of_le hse2]

theorem const_for_final_closed (l : List Adapter) (s e : Int) :
    const_for_final l s e =
      if is_rev l then (s, e - (consCount l : Int) * stepCount s e (consCount l))
      else (s + (consCount l : Int) * stepCount s e (consCount l), e) :=
  runSt_closed l (e - s).toNat s e (le_refl _)

/-! ## Lengths, membership, reversal -/

theorem length_nativeStride (s e : Int) (n : Nat) :
    (nativeStride s e n).length = stepCount s e n := by
  simp [nativeStride]

theorem length_descStride (s e : Int) (n : Nat) :
    (descStride s e n).length = stepCount s e n := by
  simp [descStride]

theorem mem_nativeStride_bounds {s e v : Int} {n : Nat} (hn : 1 ≤ n)
    (hv : v ∈ nativeStride s e n) : s ≤ v ∧ v < e := by
  unfold nativeStride at hv
  rw [List.mem_map] at hv
  obtain ⟨k, hk, hkv⟩ := hv
  rw [List.mem_range, lt_stepCount_iff hn] at hk
  obtain ⟨t, ht⟩ : ∃ t, n * k = t := ⟨n * k, rfl⟩
  rw [ht] at hk
  have hcast : (n : Int) * (k : Int) = (t : Int) := by rw [← ht]; push_cast; ring
  rw [hcast] at hkv
  omega

theorem mem_descStride_bounds {s e v : Int} {n : Nat} (hn : 1 ≤ n)
    (hv : v ∈ descStride s e n) : s ≤ v ∧ v < e := by
  unfold descStride at hv
  rw [List.mem_map] at hv
  obtain ⟨k, hk, hkv⟩ := hv
  rw [List.mem_range, lt_stepCount_iff hn] at hk
  obtain ⟨t, ht⟩ : ∃ t, n * k = t := ⟨n * k, rfl⟩
  rw [ht] at hk
  have hcast : (n : Int) * (k : Int) = (t : Int) := by rw [← ht]; push_cast; ring
  rw [hcast] at hkv
  omega

theorem mem_descStride_iff {s e : Int} {n : Nat} (hn : 1 ≤ n) (v : Int) :
    v ∈ descStride s e n ↔ s ≤ v ∧ ∃ k : Nat, v = e - 1 - (n : Int) * k := by
  constructor
  · intro hv
    refine ⟨(mem_descStride_bounds hn hv).1, ?_⟩
    unfold descStride at hv
    rw [List.mem_map] at hv
    obtain ⟨k, _, hkv⟩ := hv
    exact ⟨k, hkv.symm⟩
  · rintro ⟨hsv, k, hkv⟩
    unfold descStride
    rw [List.mem_map]
    refine ⟨k, ?_, hkv.symm⟩
    rw [List.mem_range, lt_stepCount_iff hn]
    obtain ⟨t, ht⟩ : ∃ t, n * k = t := ⟨n * k, rfl⟩
    have hcast : (n : Int) * (k : Int) = (t : Int) := by rw [← ht]; push_cast; ring
    rw [hcast] at hkv
    rw [ht]
    omega

theorem nativeStride_one (s e : Int) : nativeStride s e 1 = nativeAsc s e := by
  unfold nativeStride nativeAsc stepCount
  simp

theorem descStride_one_eq_reverse (s e : Int) :
    descStride s e 1 = (nativeStride s e 1).reverse := by
  have hcount : stepCount s e 1 = (e - s).toNat := by
    unfold stepCount
    simp
  apply List.ext_getElem
  · simp [descStride, nativeStride]
  · intro i h1 h2
    have hi : i < (e - s).toNat := by
      rw [length_descStride, hcount] at h1
      exact h1
    rw [List.getElem_reverse]
    simp only [descStride, nativeStride, List.getElem_map, List.getElem_range,
      List.length_map, List.length_range, Nat.cast_one, one_mul, hcount]
    omega

theorem const_for_asc (l : List Adapter) (hrev : is_rev l = false) (s e : Int) :
    const_for l s e = nativeStride s e (consCount l) := by
  rw [const_for_closed, hrev]
  simp

theorem const_for_desc (l : List Adapter) (hrev : is_rev l = true) (s e : Int) :
    const_for l s e = descStride s e (consCount l) := by
  rw [const_for_closed, hrev]
  simp

theorem const_for_final_asc (l : List Adapter) (hrev : is_rev l = false) (s e : Int) :
    const_for_final l s e =
      (s + (consCount l : Int) * stepCount s e (consCount l), e) := by
  rw [const_for_final_closed, hrev]
  simp

theorem const_for_final_desc (l : List Adapter) (hrev : is_rev l = true) (s e : Int) :
    const_for_final l s e =
      (s, e - (consCount l : Int) * stepCount s e (consCount l)) := by
  rw [const_for_final_closed, hrev]
  simp

theorem consCount_step {n : Nat} (hn : 1 ≤ n) : consCount [Adapter.step n] = n := by
  show max n 1 * 1 = n
  omega

theorem consCount_rev_step {n : Nat} (hn : 1 ≤ n) :
    consCount [Adapter.rev, Adapter.step n] = n := by
  show max n 1 * 1 = n
  omega

/-! ## Helpers for the body/break model and for `const_for2!` -/

theorem runBody_break3 (f : StFn) :
    ∀ (fuel : Nat) (st : Int × Int) (j : Nat), j < 3 →
      3 - j ≤ (runFuel f fuel st).length →
      runBody f (fun k _ => (k + 1, k + 1 == 3)) fuel st j = 3 := by
  intro fuel
  induction fuel with
  | zero =>
    intro st j hj hlen
    rw [runFuel] at hlen
    simp at hlen
    omega
  | succ fuel ih =>
    intro st j hj hlen
    by_cases h : st.1 < st.2
    · rw [runFuel, if_pos h, List.length_cons] at hlen
      rw [runBody, if_pos h]
      by_cases hj2 : j = 2
      · subst hj2
        simp
      · have hb : (j + 1 == 3) = false := by
          rw [beq_eq_false_iff_ne]
          omega
        simp only [hb, Bool.false_eq_true, if_false]
        exact ih (f st).2 (j + 1) (by omega) (by omega)
    · rw [runFuel, if_neg h] at hlen
      simp at hlen
      omega

theorem runBody_nobreak (f : StFn) :
    ∀ (fuel : Nat) (st : Int × Int) (j : Nat),
      runBody f (fun k _ => (k + 1, false)) fuel st j =
        j + (runFuel f fuel st).length := by
  intro fuel
  induction fuel with
  | zero =>
    intro st j
    rw [runBody, runFuel]
    simp
  | succ fuel ih =>
    intro st j
    by_cases h : st.1 < st.2
    · rw [runBody, if_pos h, runFuel, if_pos h, List.length_cons]
      simp only [Bool.false_eq_true, if_false]
      rw [ih (f st).2 (j + 1)]
      omega
    · rw [runBody, if_neg h, runFuel, if_neg h]
      simp

theorem cf2_zero_none : ∀ (fuel : Nat) (b : Bool), cf2_step_by 0 1 fuel 0 b = none := by
  intro fuel
  induction fuel with
  | zero => intro b; rfl
  | succ fuel ih =>
    intro b
    cases b <;> (rw [cf2_step_by]; norm_num [ih false])

/-! ## The claims -/

/-- C3: invoked with no modifiers, `const_for!` produces each integer in
`[s, e)` in ascending order with step 1, equal to native ascending range
iteration, including the empty case (`s ≥ e`: zero values produced) and the
singleton case (`e = s + 1`: exactly one value produced). -/
theorem c3_no_modifiers (s e : Int) :
    const_for [] s e = nativeAsc s e ∧
    (e ≤ s → const_for [] s e = []) ∧
    (e = s + 1 → const_for [] s e = [s]) := by
  have h : const_for [] s e = nativeAsc s e := by
    rw [const_for_asc [] rfl s e, show consCount [] = 1 from rfl, nativeStride_one]
  refine ⟨h, ?_, ?_⟩
  · intro he
    rw [h]
    unfold nativeAsc
    rw [show (e - s).toNat = 0 by omega]
    simp
  · intro he
    subst he
    rw [h]
    unfold nativeAsc
    rw [show (s + 1 - s).toNat = 1 by omega,
      show List.range 1 = [0] from by decide]
    simp

/-- Witness for C3 at the empty range `[7, 7)` and the singleton range
`[4, 5)`. -/
theorem c3_no_modifiers_witness :
    const_for [] 7 7 = [] ∧ const_for [] 4 5 = [4] :=
  ⟨(c3_no_modifiers 7 7).2.1 (by norm_num), (c3_no_modifiers 4 5).2.2 (by norm_num)⟩

/-- C4: invoked with the reverse modifier alone, `const_for!` produces exactly
`e-1, e-2, ..., s`, which equals the reverse of the no-modifier sequence, and
is empty whenever `s ≥ e`. -/
theorem c4_rev_only (s e : Int) :
    const_for [Adapter.rev] s e = (const_for [] s e).reverse ∧
    const_for [Adapter.rev] s e =
      (List.range (e - s).toNat).map (fun k : Nat => e - 1 - (k : Int)) ∧
    (e ≤ s → const_for [Adapter.rev] s e = []) := by
  have h : const_for [Adapter.rev] s e = descStride s e 1 := by
    rw [const_for_desc [Adapter.rev] rfl s e]
    rfl
  have h0 : const_for [] s e = nativeStride s e 1 := by
    rw [const_for_asc [] rfl s e]
    rfl
  refine ⟨?_, ?_, ?_⟩
  · rw [h, h0, descStride_one_eq_reverse]
  · rw [h]
    unfold descStride
    rw [show stepCount s e 1 = (e - s).toNat by unfold stepCount; simp]
    simp
  · intro he
    rw [h]
    unfold descStride
    rw [stepCount_of_le he]
    simp

/-- Witness for C4 at the inverted range `[9, 4)`. -/
theorem c4_rev_only_witness : const_for [Adapter.rev] 9 4 = [] :=
  (c4_rev_only 9 4).2.2 (by norm_num)

/-- C5: invoked with the step modifier alone, `const_for!` produces
`s, s+n, s+2n, ...` taking each value while it is below `e`, equal to native
strided ascending iteration with stride `n ≥ 1`. -/
theorem c5_step_only (s e : Int) (n : Nat) (hn : 1 ≤ n) :
    const_for [Adapter.step n] s e = nativeStride s e n := by
  rw [const_for_asc [Adapter.step n] rfl s e, consCount_step hn]

/-- Witness for C5 at the range `[0, 10)` with stride 4. -/
theorem c5_step_only_witness :
    1 ≤ 4 ∧ const_for [Adapter.step 4] 0 10 = nativeStride 0 10 4 :=
  ⟨by norm_num, c5_step_only 0 10 4 (by norm_num)⟩

/-- C2: invoked with the reverse modifier first and the step modifier second,
`const_for!` produces `e-1, e-1-n, e-1-2n, ...` continuing while the value is
at least `s`; the first produced value is always `e-1`. -/
theorem c2_rev_then_step (s e : Int) (n : Nat) (hn : 1 ≤ n) :
    const_for [Adapter.rev, Adapter.step n] s e = descStride s e n ∧
    (∀ v : Int, v ∈ const_for [Adapter.rev, Adapter.step n] s e ↔
      s ≤ v ∧ ∃ k : Nat, v = e - 1 - (n : Int) * k) ∧
    (s < e → (const_for [Adapter.rev, Adapter.step n] s e).head? = some (e - 1)) := by
  have hd : const_for [Adapter.rev, Adapter.step n] s e = descStride s e n := by
    rw [const_for_desc [Adapter.rev, Adapter.step n] rfl s e, consCount_rev_step hn]
  refine ⟨hd, ?_, ?_⟩
  · intro v
    rw [hd]
    exact mem_descStride_iff hn v
  · intro hse
    rw [hd]
    obtain ⟨m, hm2⟩ : ∃ m, stepCount s e n = m + 1 :=
      ⟨stepCount s e n - 1, by have := stepCount_pos hn hse; omega⟩
    unfold descStride
    rw [hm2, List.range_succ_eq_map, List.map_cons]
    simp

/-- Witness for C2: on `[0, 10)` with step 4 the reverse-then-step sequence is
`[9, 5, 1]`, exactly as the claim states. -/
theorem c2_rev_then_step_witness :
    1 ≤ 4 ∧ const_for [Adapter.rev, Adapter.step 4] 0 10 = [9, 5, 1] :=
  ⟨by norm_num, ((c2_rev_then_step 0 10 4 (by norm_num)).1).trans (by decide)⟩

/-- C1 (refuting evaluation): the claim — and the crate's own doc-test — says
`(0..10).step_by(4).rev()` yields `[8, 4, 0]`, the reverse of the ascending
strided sequence `[0, 4, 8]`.  The macro actually expands the `rev()` adapter
arm to the identity and derives direction solely from the toggled `rev` flag,
so step-then-reverse produces exactly the same descending-anchored sequence
`[9, 5, 1]` as reverse-then-step, not `[8, 4, 0]`. -/
theorem c1_step_then_rev_bug :
    const_for [Adapter.step 4, Adapter.rev] 0 10 = [9, 5, 1] ∧
    const_for [Adapter.step 4, Adapter.rev] 0 10 =
      const_for [Adapter.rev, Adapter.step 4] 0 10 ∧
    (nativeStride 0 10 4).reverse = [8, 4, 0] ∧
    const_for [Adapter.step 4, Adapter.rev] 0 10 ≠ (nativeStride 0 10 4).reverse :=
  ⟨by decide, by decide, by decide, by decide⟩

/-- C10: the `const_for!` matcher accepts any number of adapters; two reverse
modifiers toggle the `rev` flag twice and cancel, so the construct with
`rev().rev()` produces exactly the no-modifier ascending sequence. -/
theorem c10_double_rev (s e : Int) :
    const_for [Adapter.rev, Adapter.rev] s e = const_for [] s e := by
  rw [const_for_asc [Adapter.rev, Adapter.rev] rfl s e, const_for_asc [] rfl s e]
  rfl

/-- C6 counterexample: the claim says every raw consumption preserves
`s ≤ __start ≤ __end ≤ e` and that the stride's extra consumptions never
consume past the exhaustion point.  On `(0..10).step_by(4)` the final stride's
discarded consumptions run past the meeting point: the loop ends with
`__start = 12 > __end = 10`, so cursors do pass each other. -/
theorem c6_cursor_cross_counterexample :
    const_for_final [Adapter.step 4] 0 10 = (12, 10) ∧
    ¬ (const_for_final [Adapter.step 4] 0 10).1 ≤
        (const_for_final [Adapter.step 4] 0 10).2 :=
  ⟨by decide, by decide⟩

/-- C6 amended: the untouched cursor stays at its end of the range and the
moving cursor is monotone, but during the final produced value's stride the
moving cursor may overshoot the exhaustion point by up to `n - 1` raw
consumptions (ascending: `__end = e` throughout and
`s ≤ __start ≤ max s (e + (n-1))`; descending: `__start = s` throughout and
`min e (s - (n-1)) ≤ __end ≤ e`); once the cursors meet or cross the loop
terminates immediately, and an already-empty range performs no consumption at
all. -/
theorem c6_cursor_overshoot (s e : Int) (n : Nat) (hn : 1 ≤ n) :
    ((const_for_final [Adapter.step n] s e).2 = e ∧
      s ≤ (const_for_final [Adapter.step n] s e).1 ∧
      (const_for_final [Adapter.step n] s e).1 ≤ max s (e + ((n : Int) - 1))) ∧
    ((const_for_final [Adapter.rev, Adapter.step n] s e).1 = s ∧
      (const_for_final [Adapter.rev, Adapter.step n] s e).2 ≤ e ∧
      min e (s - ((n : Int) - 1)) ≤
        (const_for_final [Adapter.rev, Adapter.step n] s e).2) ∧
    (e ≤ s → const_for [Adapter.step n] s e = [] ∧
      const_for_final [Adapter.step n] s e = (s, e)) := by
  have ha := const_for_final_asc [Adapter.step n] rfl s e
  rw [consCount_step hn] at ha
  have hd := const_for_final_desc [Adapter.rev, Adapter.step n] rfl s e
  rw [consCount_rev_step hn] at hd
  obtain ⟨p, hp⟩ : ∃ p, n * stepCount s e n = p := ⟨n * stepCount s e n, rfl⟩
  have hge : (e - s).toNat ≤ p := by rw [← hp]; exact stepCount_mul_ge hn s e
  have hle : p ≤ (e - s).toNat + (n - 1) := by rw [← hp]; exact stepCount_mul_le n s e
  have hcast : (n : Int) * ((stepCount s e n : Nat) : Int) = (p : Int) := by
    rw [← hp]; push_cast; ring
  rw [hcast] at ha hd
  have hzero : e ≤ s → p = 0 := by
    intro h
    rw [← hp, stepCount_of_le h, Nat.mul_zero]
  refine ⟨?_, ?_, ?_⟩
  · rw [ha]
    refine ⟨rfl, ?_, ?_⟩
    · show s ≤ s + (p : Int)
      omega
    · show s + (p : Int) ≤ max s (e + ((n : Int) - 1))
      by_cases hse : s < e
      · refine le_trans ?_ (le_max_right _ _)
        omega
      · refine le_trans ?_ (le_max_left _ _)
        have h0 : p = 0 := hzero (by omega)
        omega
  · rw [hd]
    refine ⟨rfl, ?_, ?_⟩
    · show e - (p : Int) ≤ e
      omega
    · show min e (s - ((n : Int) - 1)) ≤ e - (p : Int)
      by_cases hse : s < e
      · refine le_trans (min_le_right _ _) ?_
        omega
      · refine le_trans (min_le_left _ _) ?_
        have h0 : p = 0 := hzero (by omega)
        omega
  · intro he
    constructor
    · rw [const_for_asc [Adapter.step n] rfl s e, consCount_step hn]
      unfold nativeStride
      rw [stepCount_of_le he]
      simp
    · rw [ha, hzero he]
      simp

/-- Witness for C6's amended invariant at `[0, 10)` with stride 4 and at the
inverted range `[12, 10)`. -/
theorem c6_cursor_overshoot_witness :
    (const_for_final [Adapter.step 4] 0 10).2 = 10 ∧
    const_for [Adapter.step 4] 12 10 = [] :=
  ⟨((c6_cursor_overshoot 0 10 4 (by norm_num)).1).1,
   ((c6_cursor_overshoot 12 10 4 (by norm_num)).2.2 (by norm_num)).1⟩

/-- C7 counterexample: over a fixed-width element type the claim fails.  With
`u8` cursors under wrapping (release-mode) arithmetic, `(0..10).rev().step_by(4)`
produces `9, 5, 1` and then the final stride wraps `__end` below zero, after
which the loop keeps running and produces `253` and `249` — values `≥ e = 10`
— instead of terminating.  (In debug or const evaluation the same input
aborts with a subtract-with-overflow panic rather than completing.) -/
theorem c7_wrap_counterexample :
    run8 4 5 (0, 10) = [9, 5, 1, 253, 249] ∧ ¬ (253 : Nat) < 10 :=
  ⟨by decide, by decide⟩

/-- C7 amended: over unbounded integer cursors (no wrap-around) the claim
holds: with stride `n ≥ 1` the produced sequence has length
`⌈(e - s) / n⌉` (i.e. `stepCount`, which is `0` for an empty or inverted
range) both ascending and descending, and every produced value `v` satisfies
`s ≤ v < e`. -/
theorem c7_length_and_bounds (s e : Int) (n : Nat) (hn : 1 ≤ n) :
    (const_for [Adapter.step n] s e).length = stepCount s e n ∧
    (∀ v : Int, v ∈ const_for [Adapter.step n] s e → s ≤ v ∧ v < e) ∧
    (const_for [Adapter.rev, Adapter.step n] s e).length = stepCount s e n ∧
    (∀ v : Int, v ∈ const_for [Adapter.rev, Adapter.step n] s e → s ≤ v ∧ v < e) := by
  have ha : const_for [Adapter.step n] s e = nativeStride s e n := by
    rw [const_for_asc [Adapter.step n] rfl s e, consCount_step hn]
  have hd : const_for [Adapter.rev, Adapter.step n] s e = descStride s e n := by
    rw [const_for_desc [Adapter.rev, Adapter.step n] rfl s e, consCount_rev_step hn]
  refine ⟨by rw [ha, length_nativeStride], ?_, by rw [hd, length_descStride], ?_⟩
  · intro v hv
    rw [ha] at hv
    exact mem_nativeStride_bounds hn hv
  · intro v hv
    rw [hd] at hv
    exact mem_descStride_bounds hn hv

/-- Witness for C7's amended statement at `[0, 10)` with stride 4. -/
theorem c7_length_and_bounds_witness :
    (const_for [Adapter.step 4] 0 10).length = stepCount 0 10 4 :=
  (c7_length_and_bounds 0 10 4 (by norm_num)).1

/-- C8 counterexample: the `step_by` arm of `const_for2!` makes no progress
when the step is zero: on the nonempty range `[0, 1)` the loop never breaks,
however much fuel it is given — a silent livelock, with the body run every
iteration. -/
theorem c8_livelock_counterexample :
    ¬ ∃ fuel : Nat, (cf2_run 0 0 1 fuel).isSome = true := by
  rintro ⟨fuel, hfuel⟩
  have h : cf2_run 0 0 1 fuel = none := cf2_zero_none fuel true
  rw [h] at hfuel
  simp at hfuel

/-- C8 amended: the `const_for!` adapter lowering does guarantee forward
progress with a zero step: the `step_by(0)` arm still performs one raw
consumption per produced value (`consCount = 1`), so the construct behaves
exactly like the unmodified loop and terminates on every finite range,
producing `(e - s).toNat` values.  (`const_for2!`'s `step_by` arm, by
contrast, livelocks — see the counterexample.) -/
theorem c8_step_zero_progress (s e : Int) :
    const_for [Adapter.step 0] s e = const_for [] s e ∧
    consCount [Adapter.step 0] = 1 ∧
    (const_for [Adapter.step 0] s e).length = (e - s).toNat := by
  have h0 : const_for [Adapter.step 0] s e = nativeStride s e 1 := by
    rw [const_for_asc [Adapter.step 0] rfl s e]
    rfl
  have h1 : const_for [] s e = nativeStride s e 1 := by
    rw [const_for_asc [] rfl s e]
    rfl
  refine ⟨h0.trans h1.symm, rfl, ?_⟩
  rw [h0, length_nativeStride]
  unfold stepCount
  simp

/-- C9: a `break` in the body unwinds exactly the loop the author wrote: for
every adapter chain and range producing at least three values, a body that
breaks after its third evaluation leaves exactly three body evaluations
having occurred and the construct returns immediately; and a body that never
breaks (every iteration ends in `continue`) is evaluated once per produced
value, re-entering the stride/exhaustion bookkeeping each time. -/
theorem c9_break_and_continue (l : List Adapter) (s e : Int)
    (h3 : 3 ≤ (const_for l s e).length) :
    const_for_body l s e (fun k _ => (k + 1, k + 1 == 3)) 0 = 3 ∧
    const_for_body l s e (fun k _ => (k + 1, false)) 0 = (const_for l s e).length := by
  constructor
  · exact runBody_break3 (next l) (e - s).toNat (s, e) 0 (by omega) (by simpa using h3)
  · simpa using runBody_nobreak (next l) (e - s).toNat (s, e) 0

/-- Witness for C9 on the plain range `[0, 5)`, which produces five values. -/
theorem c9_break_and_continue_witness :
    const_for_body [] 0 5 (fun k _ => (k + 1, k + 1 == 3)) 0 = 3 :=
  (c9_break_and_continue [] 0 5 (by decide)).1

end ConstFor
